import Mathlib

/-!
Verification of the word-completion extension (src/src/extension.ts).

The development shallowly embeds the TypeScript source: strings are lists of
characters, a VS Code text document is its identity together with its lines,
and the pieces of the VS Code API the extension touches
(getWordRangeAtPosition, getText over an optional range, line/character
positions) are modelled explicitly.  The regular expression built in
pushWordsFromText is modelled by compiling the spliced word into a list of
single-character atoms; splices that would produce a pattern outside this
single-character fragment (unbalanced groups, quantifiers, ...) are modelled
as compilation failure, mirroring the RegExp constructor throwing.
-/

namespace WordCompletion

/-- JS regex word character: `[A-Za-z0-9_]`. -/
def isWordChar (c : Char) : Bool := c.isAlpha || c.isDigit || c == '_'

/-- JS regex whitespace (ASCII fragment): space, tab, newline, carriage
return, vertical tab, form feed. -/
def isSpaceChar (c : Char) : Bool :=
  c == ' ' || c == '\t' || c == '\n' || c == '\r' || c == '\x0b' || c == '\x0c'

/-- A VS Code `Position`: zero-based line and character. -/
structure Pos where
  line : Nat
  character : Nat
deriving DecidableEq, Repr

/-- A VS Code `Range` between two positions. -/
structure Rng where
  start : Pos
  stop : Pos
deriving DecidableEq, Repr

/-- A VS Code `TextDocument`: its object identity (modelled by a numeric id,
since the source only compares documents with `!==`) and its lines. -/
structure TextDocument where
  id : Nat
  lines : List (List Char)
deriving DecidableEq, Repr

/-- The `DocumentList` registry: a JS `Map` from document to its text.  JS
maps iterate in insertion order, so the registry is an association list in
registration order, keyed by document identity. -/
abbrev DocumentList := List (Nat × List Char)

/-- The whole text of a document, lines joined by a newline
(`TextDocument.getText()` with no range). -/
def fullText (doc : TextDocument) : List Char :=
  (doc.lines.intersperse ['\n']).flatten

/-- Character offset of a position inside `fullText` (each earlier line
contributes its length plus one for the newline). -/
def offsetAt (doc : TextDocument) (p : Pos) : Nat :=
  ((doc.lines.take p.line).map (fun l => l.length + 1)).sum + p.character

/-- `TextDocument.getText(range?)`: with no range the entire text is
returned (this is the VS Code behaviour when `getWordRangeAtPosition` came
back `undefined`); with a range, the slice between the two offsets. -/
def getText (doc : TextDocument) : Option Rng → List Char
  | none => fullText doc
  | some r => ((fullText doc).take (offsetAt doc r.stop)).drop (offsetAt doc r.start)

/-- The end-of-document position used by `loadWords`:
`new Position(lineCount - 1, lastLine.range.end.character)`. -/
def docEndPos (doc : TextDocument) : Pos :=
  ⟨doc.lines.length - 1, (doc.lines.getLastD []).length⟩

/-- `TextDocument.getWordRangeAtPosition` with the default word definition:
the maximal run of word characters containing or immediately preceding the
position, `none` when the position touches no word character. -/
def getWordRangeAtPosition (doc : TextDocument) (pos : Pos) : Option Rng :=
  match doc.lines.get? pos.line with
  | none => none
  | some s =>
    let i := pos.character
    let before := ((s.take i).reverse.takeWhile isWordChar).length
    let after := ((s.drop i).takeWhile isWordChar).length
    if before == 0 && after == 0 then none
    else some ⟨⟨pos.line, i - before⟩, ⟨pos.line, i + after⟩⟩

/-- `CurrentWord.getCurrentWord`: the text of the word range at the cursor.
When the range lookup fails, `doc.getText(undefined)` returns the entire
document text. -/
def getCurrentWord (doc : TextDocument) (selActive : Pos) : List Char :=
  getText doc (getWordRangeAtPosition doc selActive)

/-- One single-character atom of the pattern spliced from the word in
`pushWordsFromText` (`new RegExp ("(^|\\s+|\\W)(" + word + "\\w+)", "gm")`). -/
inductive RAtom where
  | lit (c : Char)
  | anyDot
  | classW
  | classS
  | classD
  | classNW
  | classNS
  | classND
deriving DecidableEq, Repr

/-- Whether a single-character atom matches a character. -/
def atomMatches : RAtom → Char → Bool
  | .lit a, c => c == a
  | .anyDot, c => !(c == '\n' || c == '\r')
  | .classW, c => isWordChar c
  | .classS, c => isSpaceChar c
  | .classD, c => c.isDigit
  | .classNW, c => !isWordChar c
  | .classNS, c => !isSpaceChar c
  | .classND, c => !c.isDigit

/-- Structural regex metacharacters.  If the spliced word contains one of
these, the resulting pattern leaves the single-character fragment modelled
here (it either throws from the RegExp constructor or changes the pattern's
shape); compilation is modelled as failing. -/
def isRegexMeta (c : Char) : Bool :=
  c == '(' || c == ')' || c == '[' || c == ']' || c == '\x7b' || c == '\x7d' ||
  c == '|' || c == '*' || c == '+' || c == '?' || c == '^' || c == '$'

/-- The atom denoted by an escape sequence `\\c` for a character class. -/
def escapeClass (c : Char) : RAtom :=
  if c == 'w' then .classW
  else if c == 's' then .classS
  else if c == 'd' then .classD
  else if c == 'W' then .classNW
  else if c == 'S' then .classNS
  else if c == 'D' then .classND
  else .lit c

/-- Compile the word spliced into the pattern into a list of
single-character atoms.  The word is inserted verbatim (the source does not
escape it), so `.` becomes a wildcard and escape sequences keep their regex
meaning; a splice producing a malformed or structurally different pattern is
a `none` (the RegExp constructor throws on e.g. an unbalanced `(`). -/
def compileWordPattern : List Char → Option (List RAtom)
  | [] => some []
  | c :: rest =>
    if c == '\\' then
      match rest with
      | [] => none
      | e :: rest2 =>
        if e == 'w' || e == 's' || e == 'd' || e == 'W' || e == 'S' || e == 'D' then
          (compileWordPattern rest2).map (fun as => escapeClass e :: as)
        else if e == 'n' then (compileWordPattern rest2).map (fun as => RAtom.lit '\n' :: as)
        else if e == 't' then (compileWordPattern rest2).map (fun as => RAtom.lit '\t' :: as)
        else if e == 'r' then (compileWordPattern rest2).map (fun as => RAtom.lit '\r' :: as)
        else if e.isAlpha || e.isDigit then none
        else (compileWordPattern rest2).map (fun as => RAtom.lit e :: as)
    else if c == '.' then (compileWordPattern rest).map (fun as => RAtom.anyDot :: as)
    else if isRegexMeta c then none
    else (compileWordPattern rest).map (fun as => RAtom.lit c :: as)

/-- Match a sequence of single-character atoms against the front of a
string, returning the remaining suffix. -/
def matchAtoms : List RAtom → List Char → Option (List Char)
  | [], s => some s
  | _ :: _, [] => none
  | a :: as, c :: s => if atomMatches a c then matchAtoms as s else none

/-- Match the capture group `(word\w+)` at the front of `s`: the word atoms,
then a maximal nonempty run of word characters.  Returns the matched group
and the remaining suffix. -/
def matchGroup2 (atoms : List RAtom) (s : List Char) : Option (List Char × List Char) :=
  match matchAtoms atoms s with
  | none => none
  | some s1 =>
    let k := (s1.takeWhile isWordChar).length
    if k == 0 then none
    else some (s.take (atoms.length + k), s.drop (atoms.length + k))

/-- The `\s+` alternative of the boundary group with backtracking: try
consuming `k` whitespace characters, longest first, and match the capture
group after them. -/
def trySpacesThen (atoms : List RAtom) (s : List Char) : Nat → Option (List Char × List Char)
  | 0 => none
  | k + 1 =>
    match matchGroup2 atoms (s.drop (k + 1)) with
    | some r => some r
    | none => trySpacesThen atoms s k

/-- Try to match the whole pattern `(^|\s+|\W)(word\w+)` at the current
suffix `s`; `atLineStart` records whether the multiline `^` matches here.
Alternatives are tried in the pattern's order. -/
def tryMatchAt (atoms : List RAtom) (s : List Char) (atLineStart : Bool) :
    Option (List Char × List Char) :=
  match (if atLineStart then matchGroup2 atoms s else none) with
  | some r => some r
  | none =>
    match trySpacesThen atoms s ((s.takeWhile isSpaceChar).length) with
    | some r => some r
    | none =>
      match s with
      | [] => none
      | c :: s1 => if !isWordChar c then matchGroup2 atoms s1 else none

/-- JS `String.trim`: drop whitespace from both ends. -/
def trimChars (s : List Char) : List Char :=
  ((s.dropWhile isSpaceChar).reverse.dropWhile isSpaceChar).reverse

/-- The `regexp.exec` loop of `pushWordsFromText`: walk the text, collecting
`match[2].trim()` for each successive non-overlapping match.  After a match
the scan resumes at its end (the group ends in a word character, so the next
position is never at a line start). -/
def scanAux (atoms : List RAtom) : Nat → List Char → Bool → List (List Char)
  | 0, _, _ => []
  | fuel + 1, s, atStart =>
    match tryMatchAt atoms s atStart, s with
    | some (g2, rest), _ => trimChars g2 :: scanAux atoms fuel rest false
    | none, [] => []
    | none, c :: s1 => scanAux atoms fuel s1 (c == '\n')

/-- All words the regex scan extracts from a text (each match consumes at
least one character, so `length + 1` steps always finish the text). -/
def scanWords (atoms : List RAtom) (text : List Char) : List (List Char) :=
  scanAux atoms (text.length + 1) text true

/-- `lodash.uniq`: keep the first occurrence of each element. -/
def uniq {α : Type _} [DecidableEq α] : List α → List α
  | [] => []
  | x :: xs => x :: (uniq xs).filter (fun y => !(y == x))

/-- The mutable fields of the `CurrentWord` class, plus the status bar item
it owns (text and visibility). -/
structure CurrentWordState where
  statusBarText : List Char
  statusBarVisible : Bool
  activeWord : List Char
  words : List (List Char)
  pos : Option Pos
  doc : Option TextDocument
deriving DecidableEq, Repr

/-- The state of a freshly constructed `CurrentWord`. -/
def initialState : CurrentWordState :=
  { statusBarText := [], statusBarVisible := false, activeWord := [],
    words := [], pos := none, doc := none }

/-- `CurrentWord.positionHasChanged`, translated clause for clause: missing
previous document/position, changed document or empty stored word; then the
prefix test; then membership of the current word in the stored list; then
the recomputed anchor comparison (JS subtraction can go negative before the
clamp, hence the excursion through `Int`). -/
def positionHasChanged (st : CurrentWordState) (w : List Char)
    (doc : TextDocument) (pos : Pos) : Bool :=
  match st.doc, st.pos with
  | some prevDoc, some prevPos =>
    if doc.id != prevDoc.id || st.activeWord.length == 0 then true
    else if !(st.activeWord.isPrefixOf w) then true
    else if !(st.words.contains w) then true
    else
      let char : Int := (pos.character : Int) - (w.length : Int) + (st.activeWord.length : Int)
      let newPos : Pos := ⟨pos.line, if 0 ≤ char then char.toNat else 0⟩
      newPos.line != prevPos.line || newPos.character != prevPos.character
  | _, _ => true

/-- `CurrentWord.pushWordsFromText`: build the regex from the word, push
every `match[2].trim()` onto the accumulated list, then `lodash.uniq` the
result.  `none` models the RegExp constructor throwing. -/
def pushWordsFromText (word text : List Char) (ws : List (List Char)) :
    Option (List (List Char)) :=
  match compileWordPattern word with
  | none => none
  | some atoms => some (uniq (ws ++ scanWords atoms text))

/-- The `docList.forEach` loop of `loadWords`: scan every registered text in
registration order. -/
def pushFromDocs (word : List Char) : DocumentList → List (List Char) →
    Option (List (List Char))
  | [], ws => some ws
  | d :: ds, ws =>
    match pushWordsFromText word d.2 ws with
    | none => none
    | some ws2 => pushFromDocs word ds ws2

/-- `CurrentWord.loadWords` for an already-stored document and position (the
source's early return on a missing `_doc`/`_pos` cannot fire: both fields
are assigned immediately before the call).  Phase 1 scans the text before
the cursor and reverses the accumulated list; phase 2 scans from the cursor
to the end of the document; phase 3 scans every registered text; finally the
word itself is pushed and the list deduplicated. -/
def loadWords (word : List Char) (doc : TextDocument) (pos : Pos)
    (docList : DocumentList) : Option (List (List Char)) :=
  match pushWordsFromText word (getText doc (some ⟨⟨0, 0⟩, pos⟩)) [] with
  | none => none
  | some ws1 =>
    match pushWordsFromText word (getText doc (some ⟨pos, docEndPos doc⟩)) ws1.reverse with
    | none => none
    | some ws2 =>
      match pushFromDocs word docList ws2 with
      | none => none
      | some ws3 => some (uniq (ws3 ++ [word]))

/-- `CurrentWord.updateStatusBar`: set the status bar text to the word and
show the item. -/
def updateStatusBar (st : CurrentWordState) (word : List Char) : CurrentWordState :=
  { st with statusBarText := word, statusBarVisible := true }

/-- The observable outcome of one `updateCurrentWord` invocation: the new
state, the edit requested from the editor (replaced range and inserted
text), whether the rebuild branch ran, and whether the invocation aborted
with a thrown exception. -/
structure UpdateResult where
  state : CurrentWordState
  edit : Option (Rng × List Char)
  rebuilt : Bool
  threw : Bool
deriving DecidableEq, Repr

/-- The unconditional tail of `updateCurrentWord` (lines 116-123): shift the
next word off the front; if a word range exists at the cursor and a word was
obtained, replace the range with it and push it back onto the end. -/
def enterSuggestion (st : CurrentWordState) (doc : TextDocument) (selActive : Pos)
    (rebuilt : Bool) : UpdateResult :=
  match getWordRangeAtPosition doc selActive, st.words.head? with
  | some r, some nw =>
    ⟨{ st with words := st.words.tail ++ [nw] }, some (r, nw), rebuilt, false⟩
  | _, _ => ⟨{ st with words := st.words.tail }, none, rebuilt, false⟩

/-- `CurrentWord.updateCurrentWord`: compute the current word, rebuild the
suggestion list when `positionHasChanged`, then enter the next suggestion.
When the regex construction inside `loadWords` throws, the fields assigned
before the call (active word, document, position, status bar) keep their new
values, `_words` has just been cleared, and the suggestion block is skipped
because the exception propagates. -/
def updateCurrentWord (st : CurrentWordState) (doc : TextDocument) (selActive : Pos)
    (docList : DocumentList) : UpdateResult :=
  let w := getCurrentWord doc selActive
  if positionHasChanged st w doc selActive then
    let st1 := updateStatusBar
      { st with activeWord := w, doc := some doc, pos := some selActive } w
    match loadWords w doc selActive docList with
    | none => ⟨{ st1 with words := [] }, none, true, true⟩
    | some ws => enterSuggestion { st1 with words := ws } doc selActive true
  else
    enterSuggestion st doc selActive false

/-- The anchor position recomputed by the last clause of
`positionHasChanged`: current cursor column minus the growth of the word
since the list was built, clamped at zero, on the cursor's line. -/
def recomputedAnchor (pos : Pos) (w activeWord : List Char) : Pos :=
  let char : Int := (pos.character : Int) - (w.length : Int) + (activeWord.length : Int)
  ⟨pos.line, if 0 ≤ char then char.toNat else 0⟩

/-- The five rebuild conditions exactly as the specification enumerates
them: (1) no stored document or position, or empty stored word; (2) changed
document; (3) the current word does not extend the stored word; (4) the
current word is not among the stored candidates; (5) the recomputed anchor
differs from the stored one. -/
def rebuildCond (st : CurrentWordState) (w : List Char)
    (doc : TextDocument) (pos : Pos) : Prop :=
  (st.doc = none ∨ st.pos = none ∨ st.activeWord = [])
  ∨ (∃ d, st.doc = some d ∧ d.id ≠ doc.id)
  ∨ ¬ st.activeWord <+: w
  ∨ w ∉ st.words
  ∨ (∃ p, st.pos = some p ∧ recomputedAnchor pos w st.activeWord ≠ p)

/-- The candidate list as the specification describes it: one deduplication
pass, first occurrence kept, over the concatenation whose phase-1 segment is
the reversed occurrence sequence (occurrence closest to the cursor first). -/
def specClaimedCandidates (word : List Char) (doc : TextDocument) (pos : Pos)
    (docList : DocumentList) : Option (List (List Char)) :=
  (compileWordPattern word).map (fun atoms =>
    uniq ((scanWords atoms (getText doc (some ⟨⟨0, 0⟩, pos⟩))).reverse
      ++ scanWords atoms (getText doc (some ⟨pos, docEndPos doc⟩))
      ++ (docList.map (fun d => scanWords atoms d.2)).flatten
      ++ [word]))

/-- Phase 3 as the specification describes it: scan only the registered
sources other than the primary document. -/
def loadWordsExcludingPrimary (word : List Char) (doc : TextDocument) (pos : Pos)
    (docList : DocumentList) : Option (List (List Char)) :=
  loadWords word doc pos (docList.filter (fun d => !(d.1 == doc.id)))

/-- String literals as character lists, for concrete instances. -/
def str (s : String) : List Char := s.data

/-- The order-scenario document: `"alpha foo1 foo2 [cursor] foo3 foo4"`
with the cursor at column 16, the start of `foo3`. -/
def sampleDoc2 : TextDocument := ⟨0, [str "alpha foo1 foo2 foo3 foo4"]⟩

/-- A document whose pre-cursor text repeats a matching word. -/
def sampleDoc4 : TextDocument := ⟨0, [str "foo1 foo2 foo1 "]⟩

/-- A document whose cursor position (0,3) touches no word. -/
def sampleDoc6 : TextDocument := ⟨0, [str "ab "]⟩

/-- A document giving a candidate both before a rebuild and after it. -/
def sampleDoc7 : TextDocument := ⟨0, [str "foo foobar"]⟩

/-- A primary document whose id also appears in the registry. -/
def sampleDoc8 : TextDocument := ⟨0, [str "foo x"]⟩

/-- A document for the stable-cycle scenario. -/
def sampleDoc3 : TextDocument := ⟨0, [str "foo bar"]⟩

/-- A stored state that makes the invocation at (0,3) on `sampleDoc3`
stable (no rebuild). -/
def sampleState3 : CurrentWordState :=
  { statusBarText := str "foo", statusBarVisible := true, activeWord := str "foo",
    words := [str "foo", str "zzz"], pos := some ⟨0, 3⟩, doc := some sampleDoc3 }

/-- A document whose full text is its only "word": the cursor at (0,4)
touches no word range, yet the full text is the stored active word. -/
def sampleDoc10 : TextDocument := ⟨0, [str "foo "]⟩

/-- A stored state that makes the invocation at (0,4) on `sampleDoc10`
stable although no word range exists there. -/
def sampleState10 : CurrentWordState :=
  { statusBarText := str "foo ", statusBarVisible := true, activeWord := str "foo ",
    words := [str "foo ", str "zz"], pos := some ⟨0, 4⟩, doc := some sampleDoc10 }

/-- The compiled pattern atoms of the word "foo". -/
def atomsFoo : List RAtom := [RAtom.lit 'f', RAtom.lit 'o', RAtom.lit 'o']

/-! ## Properties of `uniq` -/

theorem mem_uniq {α : Type _} [DecidableEq α] (a : α) :
    ∀ l : List α, a ∈ uniq l ↔ a ∈ l
  | [] => Iff.rfl
  | x :: xs => by
    simp only [uniq, List.mem_cons, List.mem_filter, mem_uniq a xs,
      Bool.not_eq_true', beq_eq_false_iff_ne]
    constructor
    · rintro (rfl | ⟨h, _⟩)
      · exact Or.inl rfl
      · exact Or.inr h
    · intro h
      by_cases hax : a = x
      · exact Or.inl hax
      · rcases h with rfl | h
        · exact Or.inl rfl
        · exact Or.inr ⟨h, hax⟩

theorem nodup_uniq {α : Type _} [DecidableEq α] :
    ∀ l : List α, (uniq l).Nodup
  | [] => List.nodup_nil
  | x :: xs => by
    simp only [uniq, List.nodup_cons]
    refine ⟨fun hx => ?_, (nodup_uniq xs).filter _⟩
    have := (List.mem_filter.mp hx).2
    simp at this

theorem filter_idem {α : Type _} (q : α → Bool) (l : List α) :
    (l.filter q).filter q = l.filter q := by
  rw [List.filter_filter]
  apply List.filter_congr
  intro a _
  exact Bool.and_self _

theorem uniq_filter {α : Type _} [DecidableEq α] (p : α → Bool) :
    ∀ l : List α, uniq (l.filter p) = (uniq l).filter p
  | [] => rfl
  | x :: xs => by
    by_cases hp : p x = true
    · simp only [List.filter_cons, hp, if_pos, uniq, uniq_filter p xs]
      rw [List.filter_filter, List.filter_filter]
      congr 1
      apply List.filter_congr
      intro a _
      rw [Bool.and_comm]
    · simp only [List.filter_cons, hp, if_neg, Bool.false_eq_true, not_false_iff, uniq,
        uniq_filter p xs]
      rw [List.filter_filter]
      have hall : ∀ a, (p a && !(a == x)) = p a := by
        intro a
        by_cases hax : a = x
        · subst hax
          simp [hp]
        · simp [hax]
      simp only [hall]

theorem uniq_uniq_append {α : Type _} [DecidableEq α] :
    ∀ a b : List α, uniq (uniq a ++ b) = uniq (a ++ b)
  | [], b => by simp [uniq]
  | x :: xs, b => by
    simp only [uniq, List.cons_append]
    congr 1
    calc List.filter (fun y => !(y == x)) (uniq ((uniq xs).filter (fun y => !(y == x)) ++ b))
        = uniq (((uniq xs).filter (fun y => !(y == x)) ++ b).filter (fun y => !(y == x))) :=
          (uniq_filter _ _).symm
      _ = uniq (((uniq xs).filter (fun y => !(y == x))).filter (fun y => !(y == x))
            ++ b.filter (fun y => !(y == x))) := by rw [List.filter_append]
      _ = uniq ((uniq xs).filter (fun y => !(y == x)) ++ b.filter (fun y => !(y == x))) := by
          rw [filter_idem]
      _ = uniq (uniq (xs.filter (fun y => !(y == x))) ++ b.filter (fun y => !(y == x))) := by
          rw [uniq_filter]
      _ = uniq (xs.filter (fun y => !(y == x)) ++ b.filter (fun y => !(y == x))) :=
          uniq_uniq_append (xs.filter (fun y => !(y == x))) (b.filter (fun y => !(y == x)))
      _ = uniq ((xs ++ b).filter (fun y => !(y == x))) := by rw [List.filter_append]
      _ = (uniq (xs ++ b)).filter (fun y => !(y == x)) := uniq_filter _ _
termination_by a _ => a.length
decreasing_by
  simp only [List.length_cons]
  exact Nat.lt_succ_of_le (List.length_filter_le _ _)

/-! ## Shape of `loadWords` -/

theorem pushFromDocs_eq (word : List Char) (atoms : List RAtom)
    (hc : compileWordPattern word = some atoms) :
    ∀ (ds : DocumentList) (ws : List (List Char)),
      pushFromDocs word ds (uniq ws) =
        some (uniq (ws ++ (ds.map (fun d => scanWords atoms d.2)).flatten))
  | [], ws => by simp [pushFromDocs]
  | d :: ds, ws => by
    simp only [pushFromDocs, pushWordsFromText, hc]
    rw [uniq_uniq_append, pushFromDocs_eq word atoms hc ds (ws ++ scanWords atoms d.2)]
    simp [List.append_assoc]

/-- The whole candidate list, flattened: one dedup pass over the reversed
deduplicated phase-1 scan, the phase-2 scan, every registered source's scan
in registration order, and the word itself. -/
theorem loadWords_eq (word : List Char) (doc : TextDocument) (pos : Pos)
    (docList : DocumentList) :
    loadWords word doc pos docList =
      (compileWordPattern word).map (fun atoms =>
        uniq ((uniq (scanWords atoms (getText doc (some ⟨⟨0, 0⟩, pos⟩)))).reverse
          ++ scanWords atoms (getText doc (some ⟨pos, docEndPos doc⟩))
          ++ (docList.map (fun d => scanWords atoms d.2)).flatten
          ++ [word])) := by
  cases hc : compileWordPattern word with
  | none => simp [loadWords, pushWordsFromText, hc]
  | some atoms =>
    simp only [loadWords, pushWordsFromText, hc, List.nil_append, Option.map_some']
    rw [pushFromDocs_eq word atoms hc docList]
    simp only [uniq_uniq_append, List.append_assoc]

/-! ## Soundness of the scan for an all-word-character word -/

theorem matchAtoms_lit : ∀ w s s' : List Char,
    matchAtoms (w.map RAtom.lit) s = some s' → s = w ++ s'
  | [], s, s' => by
    simp only [List.map_nil, matchAtoms, Option.some.injEq, List.nil_append]
    exact fun h => h
  | c :: w, s, s' => by
    cases s with
    | nil => simp [matchAtoms]
    | cons d s0 =>
      simp only [List.map_cons, matchAtoms, atomMatches]
      by_cases hb : (d == c) = true
      · have hd : d = c := eq_of_beq hb
        subst hd
        simp only [hb, if_pos]
        intro h2
        rw [List.cons_append, ← matchAtoms_lit w s0 s' h2]
      · simp [hb]

theorem take_length_takeWhile {α : Type _} (p : α → Bool) :
    ∀ s : List α, s.take ((s.takeWhile p).length) = s.takeWhile p
  | [] => rfl
  | c :: s => by
    by_cases h : p c = true
    · simp [List.takeWhile_cons, h, take_length_takeWhile p s]
    · simp [List.takeWhile_cons, h]

theorem mem_takeWhile_pred {α : Type _} (p : α → Bool) :
    ∀ (s : List α) (a : α), a ∈ s.takeWhile p → p a = true
  | [], a => by simp [List.takeWhile]
  | c :: s, a => by
    by_cases h : p c = true
    · simp only [List.takeWhile_cons, h, if_pos, List.mem_cons]
      rintro (rfl | ha)
      · exact h
      · exact mem_takeWhile_pred p s a ha
    · simp [List.takeWhile_cons, h]

theorem matchGroup2_lit (w s g2 rest : List Char)
    (h : matchGroup2 (w.map RAtom.lit) s = some (g2, rest)) :
    ∃ run, g2 = w ++ run ∧ run ≠ [] ∧ ∀ c ∈ run, isWordChar c = true := by
  unfold matchGroup2 at h
  cases hm : matchAtoms (w.map RAtom.lit) s with
  | none => simp [hm] at h
  | some s1 =>
    simp only [hm] at h
    have hs := matchAtoms_lit w s s1 hm
    by_cases hk : (((s1.takeWhile isWordChar).length : Nat) == 0) = true
    · rw [if_pos hk] at h; exact absurd h (by simp)
    · rw [if_neg hk] at h
      have hg : g2 = s.take ((w.map RAtom.lit).length + (s1.takeWhile isWordChar).length) :=
        (congrArg Prod.fst (Option.some.inj h)).symm
      refine ⟨s1.takeWhile isWordChar, ?_, ?_, mem_takeWhile_pred isWordChar s1⟩
      · rw [hg, hs, List.length_map, List.take_append, take_length_takeWhile]
      · intro hnil
        rw [hnil] at hk
        simp at hk

theorem trySpacesThen_some (atoms : List RAtom) (s : List Char) (g2 rest : List Char) :
    ∀ k, trySpacesThen atoms s k = some (g2, rest) →
      ∃ s0, matchGroup2 atoms s0 = some (g2, rest)
  | 0, h => by simp [trySpacesThen] at h
  | k + 1, h => by
    unfold trySpacesThen at h
    cases hg : matchGroup2 atoms (s.drop (k + 1)) with
    | some r =>
      rw [hg] at h
      exact ⟨s.drop (k + 1), hg.trans (congrArg some (Option.some.inj h))⟩
    | none =>
      rw [hg] at h
      exact trySpacesThen_some atoms s g2 rest k h

theorem tryMatchAt_some (atoms : List RAtom) (s : List Char) (atStart : Bool)
    (g2 rest : List Char) (h : tryMatchAt atoms s atStart = some (g2, rest)) :
    ∃ s0, matchGroup2 atoms s0 = some (g2, rest) := by
  unfold tryMatchAt at h
  split at h
  · next r heq =>
    cases atStart with
    | true =>
      rw [if_pos rfl] at heq
      exact ⟨s, heq.trans h⟩
    | false => simp at heq
  · split at h
    · next r2 heq2 => exact trySpacesThen_some atoms s g2 rest _ (heq2.trans h)
    · split at h
      · exact absurd h (by simp)
      · split at h
        · exact ⟨_, h⟩
        · exact absurd h (by simp)

theorem scanAux_sound (atoms : List RAtom) :
    ∀ (fuel : Nat) (s : List Char) (b : Bool) (v : List Char),
      v ∈ scanAux atoms fuel s b →
      ∃ g2 rest s0, matchGroup2 atoms s0 = some (g2, rest) ∧ v = trimChars g2
  | 0, s, b, v => by simp [scanAux]
  | fuel + 1, s, b, v => by
    intro hv
    rw [scanAux.eq_def] at hv
    simp only at hv
    split at hv
    · next g2 rest heq =>
      rcases List.mem_cons.mp hv with h | h
      · obtain ⟨s0, hs0⟩ := tryMatchAt_some _ _ _ _ _ heq
        exact ⟨g2, rest, s0, hs0, h⟩
      · exact scanAux_sound atoms fuel rest false v h
    · exact (List.not_mem_nil v hv).elim
    · next c s1 heq => exact scanAux_sound atoms fuel s1 (c == '\n') v hv

theorem wordChar_not_space (c : Char) (h : isWordChar c = true) :
    isSpaceChar c = false := by
  cases hs : isSpaceChar c
  · rfl
  · exfalso
    simp only [isSpaceChar, Bool.or_eq_true, beq_iff_eq] at hs
    rcases hs with ((((rfl | rfl) | rfl) | rfl) | rfl) | rfl <;> exact absurd h (by decide)

theorem dropWhile_none {α : Type _} (p : α → Bool) (l : List α)
    (h : ∀ c ∈ l, p c = false) : l.dropWhile p = l := by
  cases l with
  | nil => rfl
  | cons c t => simp [List.dropWhile_cons, h c (List.mem_cons_self c t)]

theorem trimChars_id (l : List Char) (h : ∀ c ∈ l, isSpaceChar c = false) :
    trimChars l = l := by
  unfold trimChars
  rw [dropWhile_none _ _ h, dropWhile_none _ _ (fun c hc => h c (List.mem_reverse.mp hc))]
  exact List.reverse_reverse l

theorem compile_word_lit : ∀ w : List Char, (∀ c ∈ w, isWordChar c = true) →
    compileWordPattern w = some (w.map RAtom.lit)
  | [], _ => rfl
  | c :: w, h => by
    have hc := h c (List.mem_cons_self c w)
    have h1 : (c == '\\') = false := by
      cases hb : c == '\\'
      · rfl
      · exact absurd hc (by rw [eq_of_beq hb]; decide)
    have h2 : (c == '.') = false := by
      cases hb : c == '.'
      · rfl
      · exact absurd hc (by rw [eq_of_beq hb]; decide)
    have h3 : isRegexMeta c = false := by
      cases hb : isRegexMeta c
      · rfl
      · exfalso
        simp only [isRegexMeta, Bool.or_eq_true, beq_iff_eq] at hb
        rcases hb with
          ((((((((((rfl | rfl) | rfl) | rfl) | rfl) | rfl) | rfl) | rfl) | rfl) | rfl) | rfl) | rfl <;>
          exact absurd hc (by decide)
    rw [compileWordPattern.eq_def]
    simp [h1, h2, h3, compile_word_lit w (fun d hd => h d (List.mem_cons_of_mem c hd))]

/-! ## Iteration helpers -/

theorem iterate_rotate_one {α : Type _} :
    ∀ (n : Nat) (l : List α), (fun t : List α => t.rotate 1)^[n] l = l.rotate n
  | 0, l => by simp
  | n + 1, l => by
    rw [Function.iterate_succ_apply, iterate_rotate_one n (l.rotate 1), List.rotate_rotate,
      Nat.add_comm]

theorem iterate_tail_eq_drop {α : Type _} :
    ∀ (n : Nat) (l : List α), (fun t : List α => t.tail)^[n] l = l.drop n
  | 0, l => by simp
  | n + 1, l => by
    rw [Function.iterate_succ_apply, iterate_tail_eq_drop n l.tail, ← List.drop_one,
      List.drop_drop, Nat.add_comm]

/-! ## The rebuild flag of an invocation -/

theorem enterSuggestion_rebuilt (st : CurrentWordState) (doc : TextDocument)
    (selActive : Pos) (b : Bool) : (enterSuggestion st doc selActive b).rebuilt = b := by
  unfold enterSuggestion
  cases getWordRangeAtPosition doc selActive <;> cases st.words.head? <;> rfl

theorem updateCurrentWord_rebuilt (st : CurrentWordState) (doc : TextDocument)
    (selActive : Pos) (docList : DocumentList) :
    (updateCurrentWord st doc selActive docList).rebuilt =
      positionHasChanged st (getCurrentWord doc selActive) doc selActive := by
  unfold updateCurrentWord
  cases hch : positionHasChanged st (getCurrentWord doc selActive) doc selActive
  · simp [hch, enterSuggestion_rebuilt]
  · cases hl : loadWords (getCurrentWord doc selActive) doc selActive docList
    · simp [hch, hl]
    · simp [hch, hl, enterSuggestion_rebuilt]

theorem ite_true_or (c b : Bool) : (if c = true then true else b) = (c || b) := by
  cases c <;> simp

theorem contains_iff_mem {α : Type _} [BEq α] [LawfulBEq α] (l : List α) (a : α) :
    l.contains a = true ↔ a ∈ l := List.elem_iff

theorem positionHasChanged_iff (st : CurrentWordState) (w : List Char)
    (doc : TextDocument) (pos : Pos) :
    positionHasChanged st w doc pos = true ↔ rebuildCond st w doc pos := by
  unfold positionHasChanged rebuildCond
  cases hd : st.doc with
  | none => simp
  | some d =>
    cases hp : st.pos with
    | none => simp
    | some p =>
      simp only [ite_true_or]
      simp only [Bool.or_eq_true, bne_iff_ne, Bool.not_eq_true', beq_iff_eq,
        List.length_eq_zero]
      constructor
      · rintro ((h | h) | h | h | (h | h))
        · exact Or.inr (Or.inl ⟨d, rfl, fun he => h he.symm⟩)
        · exact Or.inl (Or.inr (Or.inr h))
        · refine Or.inr (Or.inr (Or.inl ?_))
          intro hpre
          have hb := List.isPrefixOf_iff_prefix.mpr hpre
          rw [h] at hb
          exact Bool.false_ne_true hb
        · refine Or.inr (Or.inr (Or.inr (Or.inl ?_)))
          intro hmem
          have hb := (contains_iff_mem st.words w).mpr hmem
          rw [h] at hb
          exact Bool.false_ne_true hb
        · refine Or.inr (Or.inr (Or.inr (Or.inr ⟨p, rfl, ?_⟩)))
          intro he
          apply h
          rw [← he]
          rfl
        · refine Or.inr (Or.inr (Or.inr (Or.inr ⟨p, rfl, ?_⟩)))
          intro he
          apply h
          rw [← he]
          rfl
      · rintro (h | ⟨d2, hd2, hne⟩ | h | h | ⟨p2, hp2, hne⟩)
        · rcases h with h | h | h
          · exact absurd h (by simp)
          · exact absurd h (by simp)
          · exact Or.inl (Or.inr h)
        · rw [Option.some.injEq] at hd2
          subst hd2
          exact Or.inl (Or.inl (fun he => hne he.symm))
        · refine Or.inr (Or.inl ?_)
          cases hb : st.activeWord.isPrefixOf w
          · rfl
          · exact absurd ( List.isPrefixOf_iff_prefix.mp hb) h
        · refine Or.inr (Or.inr (Or.inl ?_))
          cases hb : st.words.contains w
          · rfl
          · exact absurd ((contains_iff_mem st.words w).mp hb) h
        · rw [Option.some.injEq] at hp2
          subst hp2
          refine Or.inr (Or.inr (Or.inr ?_))
          by_cases hl : pos.line = p.line
          · by_cases hch : (if (0 : Int) ≤ (pos.character : Int) - (w.length : Int)
                + (st.activeWord.length : Int) then
                ((pos.character : Int) - (w.length : Int)
                  + (st.activeWord.length : Int)).toNat else 0) = p.character
            · exfalso
              apply hne
              show recomputedAnchor pos w st.activeWord = p
              rw [show recomputedAnchor pos w st.activeWord
                  = Pos.mk pos.line (if (0 : Int) ≤ (pos.character : Int) - (w.length : Int)
                    + (st.activeWord.length : Int) then
                    ((pos.character : Int) - (w.length : Int)
                      + (st.activeWord.length : Int)).toNat else 0) from rfl, hl, hch]
            · exact Or.inr hch
          · exact Or.inl hl

/-- C1: a rebuild (the `loadWords` branch) is triggered exactly when one of
the five stored-state conditions holds: missing stored document/position or
empty stored word; changed document; the current word does not extend the
stored word; the current word is not among the stored candidates; the
recomputed anchor differs from the stored anchor. -/
theorem claim1_rebuild_iff (st : CurrentWordState) (doc : TextDocument)
    (selActive : Pos) (docList : DocumentList) :
    (updateCurrentWord st doc selActive docList).rebuilt = true ↔
      rebuildCond st (getCurrentWord doc selActive) doc selActive := by
  rw [updateCurrentWord_rebuilt]
  exact positionHasChanged_iff st (getCurrentWord doc selActive) doc selActive

/-- C2: on the order scenario `"alpha foo1 foo2 [cursor] foo3 foo4"` with
the word "foo" and no other sources, the built list is exactly
`["foo2","foo1","foo3","foo4","foo"]`; every entry starts with the word and
every entry but the fallback has a longer word-character tail. -/
theorem claim2_order_scenario :
    loadWords (str "foo") sampleDoc2 ⟨0, 16⟩ [] =
      some [str "foo2", str "foo1", str "foo3", str "foo4", str "foo"] ∧
    ([str "foo2", str "foo1", str "foo3", str "foo4", str "foo"].all
      (fun v => (str "foo").isPrefixOf v)) = true ∧
    ([str "foo2", str "foo1", str "foo3", str "foo4"].all
      (fun v => decide (3 < v.length) && (v.drop 3).all isWordChar)) = true := by
  refine ⟨by decide, by decide, by decide⟩

/-- C3: a stable invocation with a word range rotates the stored list by
exactly one (head removed, applied as the edit, re-appended), and length-many
rotations restore the original list. -/
theorem claim3_cycle_rotation (st : CurrentWordState) (doc : TextDocument)
    (selActive : Pos) (docList : DocumentList) (r : Rng) (h : List Char)
    (t : List (List Char))
    (hstable : positionHasChanged st (getCurrentWord doc selActive) doc selActive = false)
    (hr : getWordRangeAtPosition doc selActive = some r)
    (hw : st.words = h :: t) :
    (updateCurrentWord st doc selActive docList).state.words = t ++ [h] ∧
    (updateCurrentWord st doc selActive docList).state.words = st.words.rotate 1 ∧
    (updateCurrentWord st doc selActive docList).edit = some (r, h) ∧
    (fun l : List (List Char) => l.rotate 1)^[st.words.length] st.words = st.words := by
  have hres : updateCurrentWord st doc selActive docList =
      ⟨{ st with words := t ++ [h] }, some (r, h), false, false⟩ := by
    simp only [updateCurrentWord, hstable, Bool.false_eq_true, if_false,
      enterSuggestion, hw, hr, List.head?_cons, List.tail_cons]
  have hrot : st.words.rotate 1 = t ++ [h] := by
    rw [hw, List.rotate_cons_succ, List.rotate_zero]
  refine ⟨by simp [hres], by simp [hres, hrot], by simp [hres], ?_⟩
  rw [iterate_rotate_one, List.rotate_length]

/-- C3 witness: a concrete stable invocation on `sampleDoc3`. -/
theorem claim3_witness :
    positionHasChanged sampleState3 (getCurrentWord sampleDoc3 ⟨0, 3⟩) sampleDoc3 ⟨0, 3⟩
      = false ∧
    getWordRangeAtPosition sampleDoc3 ⟨0, 3⟩ = some ⟨⟨0, 0⟩, ⟨0, 3⟩⟩ ∧
    sampleState3.words = str "foo" :: [str "zzz"] ∧
    ((updateCurrentWord sampleState3 sampleDoc3 ⟨0, 3⟩ []).state.words
        = [str "zzz"] ++ [str "foo"] ∧
      (updateCurrentWord sampleState3 sampleDoc3 ⟨0, 3⟩ []).state.words
        = sampleState3.words.rotate 1 ∧
      (updateCurrentWord sampleState3 sampleDoc3 ⟨0, 3⟩ []).edit
        = some (⟨⟨0, 0⟩, ⟨0, 3⟩⟩, str "foo") ∧
      (fun l : List (List Char) => l.rotate 1)^[sampleState3.words.length] sampleState3.words
        = sampleState3.words) :=
  ⟨by decide, by decide, rfl,
    claim3_cycle_rotation sampleState3 sampleDoc3 ⟨0, 3⟩ [] ⟨⟨0, 0⟩, ⟨0, 3⟩⟩
      (str "foo") [str "zzz"] (by decide) (by decide) rfl⟩

/-- C4 counterexample: with the pre-cursor text `"foo1 foo2 foo1 "` the code
deduplicates before reversing, yielding `["foo2","foo1","foo"]`, while the
claimed one-pass dedup of the reversed occurrence sequence would yield
`["foo1","foo2","foo"]` (nearest occurrence first). -/
theorem claim4_counterexample :
    loadWords (str "foo") sampleDoc4 ⟨0, 15⟩ [] =
      some [str "foo2", str "foo1", str "foo"] ∧
    specClaimedCandidates (str "foo") sampleDoc4 ⟨0, 15⟩ [] =
      some [str "foo1", str "foo2", str "foo"] ∧
    loadWords (str "foo") sampleDoc4 ⟨0, 15⟩ [] ≠
      specClaimedCandidates (str "foo") sampleDoc4 ⟨0, 15⟩ [] := by
  refine ⟨by decide, by decide, by decide⟩

/-- C4 (amended): the built list is one dedup pass over the concatenation
whose phase-1 segment is the deduplicated-then-reversed phase-1 scan (so a
repeated pre-cursor word keeps the reversed position of its earliest
occurrence), and the result has no duplicates. -/
theorem claim4_dedup_order (word : List Char) (doc : TextDocument) (pos : Pos)
    (docList : DocumentList) (atoms : List RAtom)
    (hc : compileWordPattern word = some atoms) :
    loadWords word doc pos docList =
      some (uniq ((uniq (scanWords atoms (getText doc (some ⟨⟨0, 0⟩, pos⟩)))).reverse
        ++ scanWords atoms (getText doc (some ⟨pos, docEndPos doc⟩))
        ++ (docList.map (fun d => scanWords atoms d.2)).flatten
        ++ [word])) ∧
    (uniq ((uniq (scanWords atoms (getText doc (some ⟨⟨0, 0⟩, pos⟩)))).reverse
      ++ scanWords atoms (getText doc (some ⟨pos, docEndPos doc⟩))
      ++ (docList.map (fun d => scanWords atoms d.2)).flatten
      ++ [word])).Nodup :=
  ⟨by rw [loadWords_eq, hc]; rfl, nodup_uniq _⟩

/-- C4 witness: the amended shape at the concrete repeated-word document. -/
theorem claim4_witness :
    compileWordPattern (str "foo") = some atomsFoo ∧
    (loadWords (str "foo") sampleDoc4 ⟨0, 15⟩ [] =
      some (uniq ((uniq (scanWords atomsFoo
          (getText sampleDoc4 (some ⟨⟨0, 0⟩, ⟨0, 15⟩⟩)))).reverse
        ++ scanWords atomsFoo (getText sampleDoc4 (some ⟨⟨0, 15⟩, docEndPos sampleDoc4⟩))
        ++ (([] : DocumentList).map (fun d => scanWords atomsFoo d.2)).flatten
        ++ [str "foo"])) ∧
      (uniq ((uniq (scanWords atomsFoo
          (getText sampleDoc4 (some ⟨⟨0, 0⟩, ⟨0, 15⟩⟩)))).reverse
        ++ scanWords atomsFoo (getText sampleDoc4 (some ⟨⟨0, 15⟩, docEndPos sampleDoc4⟩))
        ++ (([] : DocumentList).map (fun d => scanWords atomsFoo d.2)).flatten
        ++ [str "foo"])).Nodup) :=
  ⟨by decide, claim4_dedup_order (str "foo") sampleDoc4 ⟨0, 15⟩ [] atomsFoo (by decide)⟩

/-- C5 counterexample: a word containing a pattern metacharacter is not
treated literally (`"a."` finds the candidate `"axb"`, which does not start
with `"a."`), and a word containing `"("` makes the regex construction
throw. -/
theorem claim5_counterexample :
    pushWordsFromText (str "a.") (str "axb") [] = some [str "axb"] ∧
    (str "a.").isPrefixOf (str "axb") = false ∧
    pushWordsFromText (str "(") (str "x") [] = none := by
  refine ⟨by decide, by decide, by decide⟩

/-- C5 (amended): for a word consisting only of word characters (the shape
`getWordRangeAtPosition` produces), the scan does not fail and every
candidate it adds extends the word literally by at least one character. -/
theorem claim5_literal_for_word_chars (word text : List Char) (ws : List (List Char))
    (hword : ∀ c ∈ word, isWordChar c = true) :
    ∃ res, pushWordsFromText word text ws = some res ∧
      ∀ v ∈ res, v ∈ ws ∨ ((word <+: v) ∧ word.length < v.length) := by
  refine ⟨uniq (ws ++ scanWords (word.map RAtom.lit) text), ?_, ?_⟩
  · unfold pushWordsFromText
    rw [compile_word_lit word hword]
  · intro v hv
    rcases List.mem_append.mp ((mem_uniq v _).mp hv) with h1 | h2
    · exact Or.inl h1
    · right
      obtain ⟨g2, rest, s0, hg, hveq⟩ := scanAux_sound _ _ _ _ v h2
      obtain ⟨run, hg2, hrunNe, hrun⟩ := matchGroup2_lit word s0 g2 rest hg
      subst hveq
      subst hg2
      rw [trimChars_id]
      · refine ⟨⟨run, rfl⟩, ?_⟩
        have hpos : 0 < run.length := List.length_pos.mpr hrunNe
        simp only [List.length_append]
        omega
      · intro c hc
        rcases List.mem_append.mp hc with h | h
        · exact wordChar_not_space c (hword c h)
        · exact wordChar_not_space c (hrun c h)

/-- C5 witness: the amended property at a concrete word-character word. -/
theorem claim5_witness :
    (∀ c ∈ str "fo", isWordChar c = true) ∧
    (∃ res, pushWordsFromText (str "fo") (str "a fox") [] = some res ∧
      ∀ v ∈ res, v ∈ ([] : List (List Char)) ∨
        (((str "fo") <+: v) ∧ (str "fo").length < v.length)) :=
  ⟨by decide, claim5_literal_for_word_chars (str "fo") (str "a fox") [] (by decide)⟩

/-- C6: with no word range at the cursor, `getText(undefined)` returns the
whole document text, so the invocation does not skip candidate computation
and does not clear the status: it rebuilds with the full text as the word,
sets the status bar to that text, and scans the registry with it. -/
theorem claim6_full_text_scan :
    getWordRangeAtPosition sampleDoc6 ⟨0, 3⟩ = none ∧
    getCurrentWord sampleDoc6 ⟨0, 3⟩ = str "ab " ∧
    updateCurrentWord initialState sampleDoc6 ⟨0, 3⟩ [(1, str "ab cd\nab ef")] =
      ⟨⟨str "ab ", true, str "ab ", [str "ab ef", str "ab "], some ⟨0, 3⟩, some sampleDoc6⟩,
        none, true, false⟩ ∧
    (str "ab ") ≠ ([] : List Char) := by
  refine ⟨by decide, by decide, by decide, by decide⟩

/-- C7 counterexample: a rebuild invocation also applies the head candidate
and rotates the freshly built list, contrary to the claim that application
happens only on non-rebuild invocations. -/
theorem claim7_counterexample :
    (updateCurrentWord initialState sampleDoc7 ⟨0, 3⟩ []).rebuilt = true ∧
    (updateCurrentWord initialState sampleDoc7 ⟨0, 3⟩ []).edit =
      some (⟨⟨0, 0⟩, ⟨0, 3⟩⟩, str "foobar") ∧
    (updateCurrentWord initialState sampleDoc7 ⟨0, 3⟩ []).state.words =
      [str "foo", str "foobar"] := by
  refine ⟨by decide, by decide, by decide⟩

/-- C7 (amended): a rebuild invocation updates the stored state, presents
the status indicator, and then additionally applies the head of the freshly
built list and rotates it whenever a word range exists at the cursor. -/
theorem claim7_rebuild_applies (st : CurrentWordState) (doc : TextDocument)
    (selActive : Pos) (docList : DocumentList) (r : Rng) (h : List Char)
    (t : List (List Char))
    (hch : positionHasChanged st (getCurrentWord doc selActive) doc selActive = true)
    (hl : loadWords (getCurrentWord doc selActive) doc selActive docList = some (h :: t))
    (hr : getWordRangeAtPosition doc selActive = some r) :
    updateCurrentWord st doc selActive docList =
      ⟨⟨getCurrentWord doc selActive, true, getCurrentWord doc selActive, t ++ [h],
        some selActive, some doc⟩, some (r, h), true, false⟩ := by
  simp only [updateCurrentWord, hch, if_true, hl, updateStatusBar, enterSuggestion, hr,
    List.head?_cons, List.tail_cons]

/-- C7 witness: the amended behaviour at the concrete rebuild invocation. -/
theorem claim7_witness :
    positionHasChanged initialState (getCurrentWord sampleDoc7 ⟨0, 3⟩) sampleDoc7 ⟨0, 3⟩
      = true ∧
    loadWords (getCurrentWord sampleDoc7 ⟨0, 3⟩) sampleDoc7 ⟨0, 3⟩ [] =
      some (str "foobar" :: [str "foo"]) ∧
    getWordRangeAtPosition sampleDoc7 ⟨0, 3⟩ = some ⟨⟨0, 0⟩, ⟨0, 3⟩⟩ ∧
    updateCurrentWord initialState sampleDoc7 ⟨0, 3⟩ [] =
      ⟨⟨getCurrentWord sampleDoc7 ⟨0, 3⟩, true, getCurrentWord sampleDoc7 ⟨0, 3⟩,
        [str "foo"] ++ [str "foobar"], some ⟨0, 3⟩, some sampleDoc7⟩,
        some (⟨⟨0, 0⟩, ⟨0, 3⟩⟩, str "foobar"), true, false⟩ :=
  ⟨by decide, by decide, by decide,
    claim7_rebuild_applies initialState sampleDoc7 ⟨0, 3⟩ [] ⟨⟨0, 0⟩, ⟨0, 3⟩⟩
      (str "foobar") [str "foo"] (by decide) (by decide) (by decide)⟩

/-- C8 counterexample: phase 3 also scans the registry entry whose identity
is the primary document's (here holding stale text with the word
`"fooOld"`), while the claimed exclusion of the primary would not. -/
theorem claim8_counterexample :
    loadWords (str "foo") sampleDoc8 ⟨0, 3⟩ [(0, str "fooOld y")] =
      some [str "fooOld", str "foo"] ∧
    loadWordsExcludingPrimary (str "foo") sampleDoc8 ⟨0, 3⟩ [(0, str "fooOld y")] =
      some [str "foo"] ∧
    loadWords (str "foo") sampleDoc8 ⟨0, 3⟩ [(0, str "fooOld y")] ≠
      loadWordsExcludingPrimary (str "foo") sampleDoc8 ⟨0, 3⟩ [(0, str "fooOld y")] := by
  refine ⟨by decide, by decide, by decide⟩

/-- C8 (amended): phase 3 scans every registered source in registration
order, the primary document's entry included; every word any registered
source's scan finds is in the built list. -/
theorem claim8_scan_all_sources (word : List Char) (doc : TextDocument) (pos : Pos)
    (docList : DocumentList) (atoms : List RAtom)
    (hc : compileWordPattern word = some atoms) :
    loadWords word doc pos docList =
      some (uniq ((uniq (scanWords atoms (getText doc (some ⟨⟨0, 0⟩, pos⟩)))).reverse
        ++ scanWords atoms (getText doc (some ⟨pos, docEndPos doc⟩))
        ++ (docList.map (fun d => scanWords atoms d.2)).flatten
        ++ [word])) ∧
    ∀ d ∈ docList, ∀ v ∈ scanWords atoms d.2,
      v ∈ uniq ((uniq (scanWords atoms (getText doc (some ⟨⟨0, 0⟩, pos⟩)))).reverse
        ++ scanWords atoms (getText doc (some ⟨pos, docEndPos doc⟩))
        ++ (docList.map (fun d => scanWords atoms d.2)).flatten
        ++ [word]) := by
  refine ⟨by rw [loadWords_eq, hc]; rfl, ?_⟩
  intro d hd v hv
  rw [mem_uniq]
  simp only [List.append_assoc, List.mem_append]
  refine Or.inr (Or.inr (Or.inl ?_))
  exact List.mem_flatten.mpr ⟨scanWords atoms d.2, List.mem_map_of_mem _ hd, hv⟩

/-- C8 witness: the amended shape at the concrete stale-registry input. -/
theorem claim8_witness :
    compileWordPattern (str "foo") = some atomsFoo ∧
    (loadWords (str "foo") sampleDoc8 ⟨0, 3⟩ [(0, str "fooOld y")] =
      some (uniq ((uniq (scanWords atomsFoo
          (getText sampleDoc8 (some ⟨⟨0, 0⟩, ⟨0, 3⟩⟩)))).reverse
        ++ scanWords atomsFoo (getText sampleDoc8 (some ⟨⟨0, 3⟩, docEndPos sampleDoc8⟩))
        ++ (([(0, str "fooOld y")] : DocumentList).map
            (fun d => scanWords atomsFoo d.2)).flatten
        ++ [str "foo"])) ∧
      ∀ d ∈ ([(0, str "fooOld y")] : DocumentList), ∀ v ∈ scanWords atomsFoo d.2,
        v ∈ uniq ((uniq (scanWords atomsFoo
            (getText sampleDoc8 (some ⟨⟨0, 0⟩, ⟨0, 3⟩⟩)))).reverse
          ++ scanWords atomsFoo (getText sampleDoc8 (some ⟨⟨0, 3⟩, docEndPos sampleDoc8⟩))
          ++ (([(0, str "fooOld y")] : DocumentList).map
              (fun d => scanWords atomsFoo d.2)).flatten
          ++ [str "foo"])) :=
  ⟨by decide,
    claim8_scan_all_sources (str "foo") sampleDoc8 ⟨0, 3⟩ [(0, str "fooOld y")] atomsFoo
      (by decide)⟩

/-- C9: whenever `loadWords` produces a list, the literal word is a member,
so the list is never empty. -/
theorem claim9_fallback (word : List Char) (doc : TextDocument) (pos : Pos)
    (docList : DocumentList) (res : List (List Char))
    (hres : loadWords word doc pos docList = some res) :
    word ∈ res ∧ res ≠ [] := by
  rw [loadWords_eq] at hres
  cases hc : compileWordPattern word with
  | none =>
    rw [hc] at hres
    exact absurd hres (by simp)
  | some atoms =>
    rw [hc] at hres
    have heq := Option.some.inj hres
    have hmem : word ∈ res := by
      rw [← heq, mem_uniq]
      simp
    exact ⟨hmem, List.ne_nil_of_mem hmem⟩

/-- C9 witness: the fallback at a concrete input with no scan matches. -/
theorem claim9_witness :
    loadWords (str "foo") sampleDoc3 ⟨0, 3⟩ [] = some [str "foo"] ∧
    (str "foo" ∈ [str "foo"] ∧ [str "foo"] ≠ ([] : List (List Char))) :=
  ⟨by decide, claim9_fallback (str "foo") sampleDoc3 ⟨0, 3⟩ [] [str "foo"] (by decide)⟩

/-- C10: a stable invocation with a non-empty stored list but no word range
at the cursor drops the head without re-appending it, shrinking the list by
one; length-many tail steps empty the list. -/
theorem claim10_shrink (st : CurrentWordState) (doc : TextDocument)
    (selActive : Pos) (docList : DocumentList) (h : List Char) (t : List (List Char))
    (hstable : positionHasChanged st (getCurrentWord doc selActive) doc selActive = false)
    (hr : getWordRangeAtPosition doc selActive = none)
    (hw : st.words = h :: t) :
    (updateCurrentWord st doc selActive docList).state.words = t ∧
    (updateCurrentWord st doc selActive docList).edit = none ∧
    (updateCurrentWord st doc selActive docList).state.words.length + 1 = st.words.length ∧
    (fun l : List (List Char) => l.tail)^[st.words.length] st.words = [] := by
  have hres : updateCurrentWord st doc selActive docList =
      ⟨{ st with words := t }, none, false, false⟩ := by
    simp only [updateCurrentWord, hstable, Bool.false_eq_true, if_false,
      enterSuggestion, hw, hr, List.head?_cons, List.tail_cons]
  refine ⟨by simp [hres], by simp [hres], by simp [hres, hw], ?_⟩
  rw [iterate_tail_eq_drop, List.drop_length]

/-- C10 witness: a concrete stable invocation whose cursor touches no word
(the stored word is the whole document text). -/
theorem claim10_witness :
    positionHasChanged sampleState10 (getCurrentWord sampleDoc10 ⟨0, 4⟩) sampleDoc10 ⟨0, 4⟩
      = false ∧
    getWordRangeAtPosition sampleDoc10 ⟨0, 4⟩ = none ∧
    sampleState10.words = str "foo " :: [str "zz"] ∧
    ((updateCurrentWord sampleState10 sampleDoc10 ⟨0, 4⟩ []).state.words = [str "zz"] ∧
      (updateCurrentWord sampleState10 sampleDoc10 ⟨0, 4⟩ []).edit = none ∧
      (updateCurrentWord sampleState10 sampleDoc10 ⟨0, 4⟩ []).state.words.length + 1 =
        sampleState10.words.length ∧
      (fun l : List (List Char) => l.tail)^[sampleState10.words.length] sampleState10.words
        = []) :=
  ⟨by decide, by decide, rfl,
    claim10_shrink sampleState10 sampleDoc10 ⟨0, 4⟩ [] (str "foo ") [str "zz"]
      (by decide) (by decide) rfl⟩

end WordCompletion
